import Mathlib

/-!
Shallow embedding of `src/green.py` (GreenGPSmap): a pipeline that scores
geotagged pollution/traffic records, selects a subset by score, and computes
a closed tour over the selected points.

Numeric values (pandas float64 columns) are modelled as exact rationals.
Library calls made by the source (sklearn `MinMaxScaler`, pandas `nlargest`,
networkx `traveling_salesman_problem`) are embedded from their documented
contracts, as noted at each definition.
-/

/-- One raw CSV row (`latitude`, `longitude`, `poluicao`, `transito`), keyed
by `idx`, its origin row index (the pandas dataframe label). -/
structure Registro where
  idx : Nat
  latitude : ℚ
  longitude : ℚ
  poluicao : ℚ
  transito : ℚ
deriving Repr, DecidableEq, Inhabited

/-- A row after `carregar_e_processar_dados`: the raw fields plus the two
normalized columns and the composite score. -/
structure RegistroProc extends Registro where
  poluicao_norm : ℚ
  transito_norm : ℚ
  score : ℚ
deriving Repr, DecidableEq, Inhabited

/-- Minimum of a column, as computed over the whole loaded dataset. -/
def colMin : List ℚ → ℚ
  | [] => 0
  | x :: xs => xs.foldl min x

/-- Maximum of a column, as computed over the whole loaded dataset. -/
def colMax : List ℚ → ℚ
  | [] => 0
  | x :: xs => xs.foldl max x

/-- One entry of sklearn MinMaxScaler with the default feature range (0,1):
`(x - min) / (max - min)`, where a zero range (constant column) is replaced
by 1 before dividing (sklearn handles zeros in the scale this way), so a
constant column maps to 0. -/
def minmaxNorm (lo hi x : ℚ) : ℚ := (x - lo) / (if hi = lo then 1 else hi - lo)

/-- Embedding of `carregar_e_processar_dados` (src/green.py lines 9-23):
fits MinMaxScaler on the `poluicao` and `transito` columns of the full
dataset and adds `poluicao_norm`, `transito_norm` and
`score = (poluicao_norm + transito_norm) / 2` to every row. -/
def carregar_e_processar_dados (df : List Registro) : List RegistroProc :=
  let pmin := colMin (df.map fun r => r.poluicao)
  let pmax := colMax (df.map fun r => r.poluicao)
  let tmin := colMin (df.map fun r => r.transito)
  let tmax := colMax (df.map fun r => r.transito)
  df.map fun r =>
    let pn := minmaxNorm pmin pmax r.poluicao
    let tn := minmaxNorm tmin tmax r.transito
    { toRegistro := r, poluicao_norm := pn, transito_norm := tn,
      score := (pn + tn) / 2 }

/-- Embedding of `df.nlargest(num_pontos, 'score')` (src/green.py line 30),
per the pandas contract with the default `keep="first"`: the rows ordered by
`score` descending, ties kept in original row order, truncated to `n` rows.
For `n` larger than the dataset all rows are returned; for `n <= 0` the
result is empty (pandas returns an empty frame, it does not raise). -/
def nlargest (n : Int) (df : List RegistroProc) : List RegistroProc :=
  (df.mergeSort fun a b => decide (b.score ≤ a.score)).take n.toNat

section ScorerLemmas

theorem foldl_min_le_init (xs : List ℚ) : ∀ a : ℚ, xs.foldl min a ≤ a := by
  induction xs with
  | nil => intro a; simp
  | cons x xs ih =>
    intro a
    calc (x :: xs).foldl min a = xs.foldl min (min a x) := rfl
    _ ≤ min a x := ih (min a x)
    _ ≤ a := min_le_left a x

theorem foldl_min_le_mem (xs : List ℚ) : ∀ a y : ℚ, y ∈ xs → xs.foldl min a ≤ y := by
  induction xs with
  | nil => intro a y hy; simp at hy
  | cons x xs ih =>
    intro a y hy
    rcases List.mem_cons.mp hy with h | h
    · subst h
      calc (y :: xs).foldl min a = xs.foldl min (min a y) := rfl
      _ ≤ min a y := foldl_min_le_init xs (min a y)
      _ ≤ y := min_le_right a y
    · exact ih (min a x) y h

theorem init_le_foldl_max (xs : List ℚ) : ∀ a : ℚ, a ≤ xs.foldl max a := by
  induction xs with
  | nil => intro a; simp
  | cons x xs ih =>
    intro a
    calc a ≤ max a x := le_max_left a x
    _ ≤ xs.foldl max (max a x) := ih (max a x)
    _ = (x :: xs).foldl max a := rfl

theorem mem_le_foldl_max (xs : List ℚ) : ∀ a y : ℚ, y ∈ xs → y ≤ xs.foldl max a := by
  induction xs with
  | nil => intro a y hy; simp at hy
  | cons x xs ih =>
    intro a y hy
    rcases List.mem_cons.mp hy with h | h
    · subst h
      calc y ≤ max a y := le_max_right a y
      _ ≤ xs.foldl max (max a y) := init_le_foldl_max xs (max a y)
      _ = (y :: xs).foldl max a := rfl
    · exact ih (max a x) y h

theorem colMin_le_mem {xs : List ℚ} {y : ℚ} (hy : y ∈ xs) : colMin xs ≤ y := by
  cases xs with
  | nil => simp at hy
  | cons x xs =>
    rcases List.mem_cons.mp hy with h | h
    · subst h; exact foldl_min_le_init xs y
    · exact foldl_min_le_mem xs x y h

theorem mem_le_colMax {xs : List ℚ} {y : ℚ} (hy : y ∈ xs) : y ≤ colMax xs := by
  cases xs with
  | nil => simp at hy
  | cons x xs =>
    rcases List.mem_cons.mp hy with h | h
    · subst h; exact init_le_foldl_max xs y
    · exact mem_le_foldl_max xs x y h

theorem minmaxNorm_nonneg {lo hi x : ℚ} (hlo : lo ≤ x) (hhi : x ≤ hi) :
    0 ≤ minmaxNorm lo hi x := by
  unfold minmaxNorm
  by_cases h : hi = lo
  · simp [h]
    linarith
  · have hlt : lo < hi := lt_of_le_of_ne (hlo.trans hhi) (Ne.symm h)
    rw [if_neg h]
    apply div_nonneg <;> linarith

theorem minmaxNorm_le_one {lo hi x : ℚ} (hlo : lo ≤ x) (hhi : x ≤ hi) :
    minmaxNorm lo hi x ≤ 1 := by
  unfold minmaxNorm
  by_cases h : hi = lo
  · subst h
    have : x = hi := le_antisymm hhi hlo
    simp [this]
  · have hlt : lo < hi := lt_of_le_of_ne (hlo.trans hhi) (Ne.symm h)
    rw [if_neg h, div_le_one (by linarith)]
    linarith

theorem minmaxNorm_mono {lo hi x y : ℚ} (hlohi : lo ≤ hi) (hxy : x ≤ y) :
    minmaxNorm lo hi x ≤ minmaxNorm lo hi y := by
  unfold minmaxNorm
  by_cases h : hi = lo
  · simp [h]; linarith
  · have hlt : lo < hi := lt_of_le_of_ne hlohi (Ne.symm h)
    rw [if_neg h]
    apply div_le_div_of_nonneg_right (by linarith) (by linarith)

end ScorerLemmas

/-- C3: every processed record has both normalized metrics in [0,1], its
score equal to the mean of the two normalized metrics, and its score in
[0,1]. -/
theorem c3_norms_and_score_in_unit_interval (df : List Registro)
    (r : RegistroProc) (h : r ∈ carregar_e_processar_dados df) :
    0 ≤ r.poluicao_norm ∧ r.poluicao_norm ≤ 1 ∧
    0 ≤ r.transito_norm ∧ r.transito_norm ≤ 1 ∧
    r.score = (r.poluicao_norm + r.transito_norm) / 2 ∧
    0 ≤ r.score ∧ r.score ≤ 1 := by
  unfold carregar_e_processar_dados at h
  simp only [List.mem_map] at h
  obtain ⟨a, ha, rfl⟩ := h
  have hpmem : a.poluicao ∈ df.map (fun r => r.poluicao) :=
    List.mem_map.mpr ⟨a, ha, rfl⟩
  have htmem : a.transito ∈ df.map (fun r => r.transito) :=
    List.mem_map.mpr ⟨a, ha, rfl⟩
  have hp0 := minmaxNorm_nonneg (colMin_le_mem hpmem) (mem_le_colMax hpmem)
  have hp1 := minmaxNorm_le_one (colMin_le_mem hpmem) (mem_le_colMax hpmem)
  have ht0 := minmaxNorm_nonneg (colMin_le_mem htmem) (mem_le_colMax htmem)
  have ht1 := minmaxNorm_le_one (colMin_le_mem htmem) (mem_le_colMax htmem)
  refine ⟨hp0, hp1, ht0, ht1, rfl, by linarith, by linarith⟩

/-- Two-row example dataset used by witnesses: row 0 has the column minima,
row 1 the column maxima. -/
def dfExemplo : List Registro := [⟨0, 0, 0, 2, 2⟩, ⟨1, 0, 1, 10, 4⟩]

theorem carregar_dfExemplo :
    carregar_e_processar_dados dfExemplo =
      [⟨⟨0, 0, 0, 2, 2⟩, 0, 0, 0⟩, ⟨⟨1, 0, 1, 10, 4⟩, 1, 1, 1⟩] := by
  norm_num [dfExemplo, carregar_e_processar_dados, colMin, colMax, minmaxNorm,
    min_def, max_def]

/-- Concrete instance of C3 on a two-row dataset. -/
theorem c3_norms_and_score_in_unit_interval_witness :
    (⟨⟨1, 0, 1, 10, 4⟩, 1, 1, 1⟩ : RegistroProc) ∈
      carregar_e_processar_dados dfExemplo ∧
    (0 : ℚ) ≤ (⟨⟨1, 0, 1, 10, 4⟩, 1, 1, 1⟩ : RegistroProc).score := by
  have hmem : (⟨⟨1, 0, 1, 10, 4⟩, 1, 1, 1⟩ : RegistroProc) ∈
      carregar_e_processar_dados dfExemplo := by
    rw [carregar_dfExemplo]; simp
  exact ⟨hmem,
    (c3_norms_and_score_in_unit_interval dfExemplo _ hmem).2.2.2.2.2.1⟩

theorem foldl_min_mem (xs : List ℚ) : ∀ a : ℚ, xs.foldl min a = a ∨ xs.foldl min a ∈ xs := by
  induction xs with
  | nil => intro a; left; rfl
  | cons x xs ih =>
    intro a
    have h := ih (min a x)
    rcases h with h | h
    · rcases min_choice a x with hc | hc
      · left; rw [show (x :: xs).foldl min a = xs.foldl min (min a x) from rfl, h, hc]
      · right; rw [show (x :: xs).foldl min a = xs.foldl min (min a x) from rfl, h, hc]
        exact List.mem_cons_self x xs
    · right
      rw [show (x :: xs).foldl min a = xs.foldl min (min a x) from rfl]
      exact List.mem_cons_of_mem x h

theorem colMin_mem {xs : List ℚ} (h : xs ≠ []) : colMin xs ∈ xs := by
  cases xs with
  | nil => exact absurd rfl h
  | cons x xs =>
    rcases foldl_min_mem xs x with h | h
    · rw [show colMin (x :: xs) = xs.foldl min x from rfl, h]
      exact List.mem_cons_self x xs
    · exact List.mem_cons_of_mem x h

/-- C4: a constant metric column is normalized to 0 on every row (the
MinMaxScaler contract replaces a zero scale by 1, so the embedding is total
and no division error can arise). -/
theorem c4_constant_column_normalizes_to_zero (df : List Registro) (c : ℚ) :
    ((∀ r ∈ df, r.poluicao = c) →
      ∀ r ∈ carregar_e_processar_dados df, r.poluicao_norm = 0) ∧
    ((∀ r ∈ df, r.transito = c) →
      ∀ r ∈ carregar_e_processar_dados df, r.transito_norm = 0) := by
  constructor
  · intro hconst r hr
    unfold carregar_e_processar_dados at hr
    simp only [List.mem_map] at hr
    obtain ⟨a, ha, rfl⟩ := hr
    have hne : df.map (fun r => r.poluicao) ≠ [] := by
      intro h; rw [List.map_eq_nil_iff] at h; subst h; simp at ha
    have hmin : colMin (df.map fun r => r.poluicao) = c := by
      have hm := colMin_mem hne
      simp only [List.mem_map] at hm
      obtain ⟨b, hb, hbe⟩ := hm
      rw [← hbe, hconst b hb]
    show minmaxNorm _ _ a.poluicao = 0
    rw [hmin, hconst a ha, minmaxNorm, sub_self, zero_div]
  · intro hconst r hr
    unfold carregar_e_processar_dados at hr
    simp only [List.mem_map] at hr
    obtain ⟨a, ha, rfl⟩ := hr
    have hne : df.map (fun r => r.transito) ≠ [] := by
      intro h; rw [List.map_eq_nil_iff] at h; subst h; simp at ha
    have hmin : colMin (df.map fun r => r.transito) = c := by
      have hm := colMin_mem hne
      simp only [List.mem_map] at hm
      obtain ⟨b, hb, hbe⟩ := hm
      rw [← hbe, hconst b hb]
    show minmaxNorm _ _ a.transito = 0
    rw [hmin, hconst a ha, minmaxNorm, sub_self, zero_div]

/-- Two-row dataset whose pollution column is constant. -/
def dfConst : List Registro := [⟨0, 0, 0, 5, 1⟩, ⟨1, 0, 1, 5, 3⟩]

/-- Concrete instance of C4: a constant pollution column yields
`poluicao_norm = 0` on every row. -/
theorem c4_constant_column_normalizes_to_zero_witness :
    (∀ r ∈ dfConst, r.poluicao = 5) ∧
    (∀ r ∈ carregar_e_processar_dados dfConst, r.poluicao_norm = 0) := by
  have hconst : ∀ r ∈ dfConst, r.poluicao = 5 := by
    intro r hr
    have h : r = ⟨0, 0, 0, 5, 1⟩ ∨ r = ⟨1, 0, 1, 5, 3⟩ := by simpa [dfConst] using hr
    rcases h with h | h <;> rw [h]
  exact ⟨hconst, (c4_constant_column_normalizes_to_zero dfConst 5).1 hconst⟩

/-- Counterexample to C5 as stated: in the one-row dataset with pollution 5,
the row attains the pollution column maximum, yet its normalized value is 0,
not 1 (the constant-column fallback of C4 wins). -/
theorem c5_counterexample_constant_max :
    colMax ([(⟨0, 0, 0, 5, 5⟩ : Registro)].map fun r => r.poluicao) = 5 ∧
    ((carregar_e_processar_dados [⟨0, 0, 0, 5, 5⟩]).map fun r =>
      (r.poluicao, r.poluicao_norm)) = [(5, 0)] ∧
    (0 : ℚ) ≠ 1 := by
  norm_num [carregar_e_processar_dados, colMin, colMax, minmaxNorm]

/-- C5 amended: whenever a metric column is non-constant (min < max), rows
attaining the column minimum get normalized value 0 and rows attaining the
column maximum get normalized value 1. -/
theorem c5_amended_minmax_roundtrip (df : List Registro) (r : RegistroProc)
    (h : r ∈ carregar_e_processar_dados df) :
    (colMin (df.map fun x => x.poluicao) < colMax (df.map fun x => x.poluicao) →
      (r.poluicao = colMin (df.map fun x => x.poluicao) → r.poluicao_norm = 0) ∧
      (r.poluicao = colMax (df.map fun x => x.poluicao) → r.poluicao_norm = 1)) ∧
    (colMin (df.map fun x => x.transito) < colMax (df.map fun x => x.transito) →
      (r.transito = colMin (df.map fun x => x.transito) → r.transito_norm = 0) ∧
      (r.transito = colMax (df.map fun x => x.transito) → r.transito_norm = 1)) := by
  unfold carregar_e_processar_dados at h
  simp only [List.mem_map] at h
  obtain ⟨a, ha, rfl⟩ := h
  constructor
  · intro hlt
    have hne : colMax (df.map fun x => x.poluicao) ≠ colMin (df.map fun x => x.poluicao) :=
      hlt.ne'
    constructor
    · intro hmin
      show minmaxNorm _ _ a.poluicao = 0
      rw [minmaxNorm, if_neg hne]
      simp only [show (⟨⟨a.idx, a.latitude, a.longitude, a.poluicao, a.transito⟩,
        _, _, _⟩ : RegistroProc).poluicao = a.poluicao from rfl] at hmin
      rw [hmin, sub_self, zero_div]
    · intro hmax
      show minmaxNorm _ _ a.poluicao = 1
      rw [minmaxNorm, if_neg hne]
      simp only [show (⟨⟨a.idx, a.latitude, a.longitude, a.poluicao, a.transito⟩,
        _, _, _⟩ : RegistroProc).poluicao = a.poluicao from rfl] at hmax
      rw [hmax]
      exact div_self (sub_ne_zero.mpr hne)
  · intro hlt
    have hne : colMax (df.map fun x => x.transito) ≠ colMin (df.map fun x => x.transito) :=
      hlt.ne'
    constructor
    · intro hmin
      show minmaxNorm _ _ a.transito = 0
      rw [minmaxNorm, if_neg hne]
      simp only [show (⟨⟨a.idx, a.latitude, a.longitude, a.poluicao, a.transito⟩,
        _, _, _⟩ : RegistroProc).transito = a.transito from rfl] at hmin
      rw [hmin, sub_self, zero_div]
    · intro hmax
      show minmaxNorm _ _ a.transito = 1
      rw [minmaxNorm, if_neg hne]
      simp only [show (⟨⟨a.idx, a.latitude, a.longitude, a.poluicao, a.transito⟩,
        _, _, _⟩ : RegistroProc).transito = a.transito from rfl] at hmax
      rw [hmax]
      exact div_self (sub_ne_zero.mpr hne)

/-- Concrete instance of the amended C5 on the two-row example dataset. -/
theorem c5_amended_minmax_roundtrip_witness :
    (⟨⟨1, 0, 1, 10, 4⟩, 1, 1, 1⟩ : RegistroProc) ∈
      carregar_e_processar_dados dfExemplo ∧
    colMin (dfExemplo.map fun x => x.poluicao) <
      colMax (dfExemplo.map fun x => x.poluicao) ∧
    (⟨⟨1, 0, 1, 10, 4⟩, 1, 1, 1⟩ : RegistroProc).poluicao_norm = 1 := by
  have hmem : (⟨⟨1, 0, 1, 10, 4⟩, 1, 1, 1⟩ : RegistroProc) ∈
      carregar_e_processar_dados dfExemplo := by
    rw [carregar_dfExemplo]; simp
  have hlt : colMin (dfExemplo.map fun x => x.poluicao) <
      colMax (dfExemplo.map fun x => x.poluicao) := by
    norm_num [dfExemplo, colMin, colMax, min_def, max_def]
  have hmax : (⟨⟨1, 0, 1, 10, 4⟩, 1, 1, 1⟩ : RegistroProc).poluicao =
      colMax (dfExemplo.map fun x => x.poluicao) := by
    norm_num [dfExemplo, colMax, max_def]
  exact ⟨hmem, hlt,
    ((c5_amended_minmax_roundtrip dfExemplo _ hmem).1 hlt).2 hmax⟩

/-- C10: within one loaded dataset the composite score is monotone in the
raw metrics. -/
theorem c10_score_monotone (df : List Registro) (a b : RegistroProc)
    (ha : a ∈ carregar_e_processar_dados df) (hb : b ∈ carregar_e_processar_dados df)
    (hp : a.poluicao ≤ b.poluicao) (ht : a.transito ≤ b.transito) :
    a.score ≤ b.score := by
  unfold carregar_e_processar_dados at ha hb
  simp only [List.mem_map] at ha hb
  obtain ⟨x, hx, rfl⟩ := ha
  obtain ⟨y, hy, rfl⟩ := hb
  have hxp : x.poluicao ∈ df.map (fun r => r.poluicao) := List.mem_map.mpr ⟨x, hx, rfl⟩
  have hxt : x.transito ∈ df.map (fun r => r.transito) := List.mem_map.mpr ⟨x, hx, rfl⟩
  have hplohi : colMin (df.map fun r => r.poluicao) ≤ colMax (df.map fun r => r.poluicao) :=
    (colMin_le_mem hxp).trans (mem_le_colMax hxp)
  have htlohi : colMin (df.map fun r => r.transito) ≤ colMax (df.map fun r => r.transito) :=
    (colMin_le_mem hxt).trans (mem_le_colMax hxt)
  have h1 := minmaxNorm_mono hplohi (show x.poluicao ≤ y.poluicao from hp)
  have h2 := minmaxNorm_mono htlohi (show x.transito ≤ y.transito from ht)
  show (_ + _) / 2 ≤ (_ + _) / 2
  apply div_le_div_of_nonneg_right _ (by norm_num)
  exact add_le_add h1 h2

/-- Concrete instance of C10 on the two-row example dataset. -/
theorem c10_score_monotone_witness :
    (⟨⟨0, 0, 0, 2, 2⟩, 0, 0, 0⟩ : RegistroProc) ∈
      carregar_e_processar_dados dfExemplo ∧
    (⟨⟨0, 0, 0, 2, 2⟩, 0, 0, 0⟩ : RegistroProc).score ≤
      (⟨⟨1, 0, 1, 10, 4⟩, 1, 1, 1⟩ : RegistroProc).score := by
  have hma : (⟨⟨0, 0, 0, 2, 2⟩, 0, 0, 0⟩ : RegistroProc) ∈
      carregar_e_processar_dados dfExemplo := by
    rw [carregar_dfExemplo]; simp
  have hmb : (⟨⟨1, 0, 1, 10, 4⟩, 1, 1, 1⟩ : RegistroProc) ∈
      carregar_e_processar_dados dfExemplo := by
    rw [carregar_dfExemplo]; simp
  exact ⟨hma, c10_score_monotone dfExemplo _ _ hma hmb (by norm_num) (by norm_num)⟩

/-- C1, evaluated at the failing input: on the two-row example dataset with
scores 0 (row 0) and 1 (row 1), asking for the single best location returns
row 1, the row with the LARGEST score — `nlargest` in src/green.py line 30
contradicts both the spec and the function of the code, which per its own
comments should pick the points with the smallest scores. -/
theorem c1_selection_picks_largest_score :
    ((carregar_e_processar_dados dfExemplo).map fun r => (r.idx, r.score)) =
      [(0, 0), (1, 1)] ∧
    ((nlargest 1 (carregar_e_processar_dados dfExemplo)).map fun r => r.idx) = [1] := by
  rw [carregar_dfExemplo]
  norm_num [nlargest, List.mergeSort]

/-- Counterexample to C8 as stated: on the two-row dataset, requesting
N = 3 > 2 returns both rows and requesting N = 0 < 1 returns the empty
selection; neither request fails. -/
theorem c8_counterexample_clamps :
    (nlargest 3 (carregar_e_processar_dados dfExemplo)).length = 2 ∧
    nlargest 0 (carregar_e_processar_dados dfExemplo) = [] := by
  rw [carregar_dfExemplo]
  norm_num [nlargest, List.mergeSort]

/-- C8 amended: out-of-range target counts are clamped silently — any
N at least the dataset size returns every record, and any N below 1 returns
the empty selection; no error is raised. -/
theorem c8_amended_clamping (df : List RegistroProc) (n : Int) :
    ((df.length : Int) ≤ n → (nlargest n df).length = df.length) ∧
    (n < 1 → nlargest n df = []) := by
  constructor
  · intro h
    unfold nlargest
    have hlen : (df.mergeSort fun a b => decide (b.score ≤ a.score)).length = df.length :=
      (List.mergeSort_perm df _).length_eq
    have hle : (df.mergeSort fun a b => decide (b.score ≤ a.score)).length ≤ n.toNat := by
      omega
    rw [List.take_of_length_le hle, hlen]
  · intro h
    unfold nlargest
    have h0 : n.toNat = 0 := by omega
    rw [h0, List.take_zero]

/-- Concrete instance of the amended C8 on the two-row example dataset. -/
theorem c8_amended_clamping_witness :
    (nlargest 5 (carregar_e_processar_dados dfExemplo)).length =
      (carregar_e_processar_dados dfExemplo).length ∧
    nlargest 0 (carregar_e_processar_dados dfExemplo) = [] := by
  refine ⟨(c8_amended_clamping _ 5).1 ?_, (c8_amended_clamping _ 0).2 (by norm_num)⟩
  rw [carregar_dfExemplo]
  norm_num

/-- Squared planar Euclidean distance between two records' coordinates. -/
def sqDist (r s : Registro) : ℚ :=
  (r.latitude - s.latitude) ^ 2 + (r.longitude - s.longitude) ^ 2

/-- Edge weight of the solver's graph (src/green.py lines 43-44): the planar
Euclidean distance between the two rows' (latitude, longitude) pairs. -/
noncomputable def peso (r s : Registro) : ℝ := Real.sqrt ((sqDist r s : ℚ) : ℝ)

/-- Identifier column of a candidate set: the dataframe labels the solver
uses as graph nodes (src/green.py lines 36-37). -/
def ids (mp : List RegistroProc) : List Nat := mp.map fun r => r.idx

/-- Ordered label pairs iterated by the nested loops of src/green.py
lines 40-45; the `if idx1 != idx2` guard skips self-loops. -/
def paresOrdenados (mp : List RegistroProc) : List (Nat × Nat) :=
  (ids mp).flatMap fun i =>
    (ids mp).filterMap fun j => if i ≠ j then some (i, j) else none

/-- Edge set of the networkx graph: `G.add_edge` registers each unordered
pair once, so the graph's edges are the distinct unordered pairs seen by the
double loop. -/
def arestas (mp : List RegistroProc) : Finset (Sym2 Nat) :=
  ((paresOrdenados mp).map fun p => Sym2.mk p).toFinset

theorem arestas_eq (mp : List RegistroProc) :
    arestas mp = ((ids mp).toFinset).offDiag.image Sym2.mk := by
  ext e
  simp only [arestas, paresOrdenados, List.mem_toFinset, List.mem_map,
    List.mem_flatMap, List.mem_filterMap, Finset.mem_image, Finset.mem_offDiag,
    List.mem_toFinset]
  constructor
  · rintro ⟨p, ⟨i, hi, j, hj, hij⟩, rfl⟩
    by_cases hne : i ≠ j
    · rw [if_pos hne] at hij
      cases hij
      exact ⟨(i, j), ⟨hi, hj, hne⟩, rfl⟩
    · rw [if_neg hne] at hij
      cases hij
  · rintro ⟨⟨i, j⟩, ⟨hi, hj, hne⟩, rfl⟩
    exact ⟨(i, j), ⟨i, hi, j, hj, by rw [if_pos hne]⟩, rfl⟩

/-- C7: for a candidate set with distinct labels, the distance graph has
exactly N*(N-1)/2 distinct unordered edges, no self-loops, contains every
pair of distinct labels (completeness), and its weight function is the
planar Euclidean distance, symmetric and non-negative. -/
theorem c7_distance_graph_complete_euclidean (mp : List RegistroProc)
    (hnd : (ids mp).Nodup) :
    (arestas mp).card = mp.length * (mp.length - 1) / 2 ∧
    (∀ e ∈ arestas mp, ¬ e.IsDiag) ∧
    (∀ i j : Nat, i ∈ ids mp → j ∈ ids mp → i ≠ j → Sym2.mk (i, j) ∈ arestas mp) ∧
    (∀ r s : Registro, peso r s =
      Real.sqrt (((r.latitude : ℝ) - (s.latitude : ℝ)) ^ 2 +
        ((r.longitude : ℝ) - (s.longitude : ℝ)) ^ 2)) ∧
    (∀ r s : Registro, peso r s = peso s r) ∧
    (∀ r s : Registro, 0 ≤ peso r s) := by
  refine ⟨?_, ?_, ?_, ?_, ?_, ?_⟩
  · rw [arestas_eq, Sym2.card_image_offDiag, List.toFinset_card_of_nodup hnd]
    rw [show (ids mp).length = mp.length from List.length_map _ _]
    exact Nat.choose_two_right mp.length
  · intro e he
    rw [arestas_eq] at he
    simp only [Finset.mem_image, Finset.mem_offDiag] at he
    obtain ⟨⟨i, j⟩, ⟨_, _, hne⟩, rfl⟩ := he
    simpa using hne
  · intro i j hi hj hne
    rw [arestas_eq]
    simp only [Finset.mem_image, Finset.mem_offDiag]
    exact ⟨(i, j), ⟨List.mem_toFinset.mpr hi, List.mem_toFinset.mpr hj, hne⟩, rfl⟩
  · intro r s
    unfold peso sqDist
    congr 1
    push_cast
    ring
  · intro r s
    unfold peso
    congr 1
    push_cast [sqDist]
    ring
  · intro r s
    exact Real.sqrt_nonneg _

/-- Concrete instance of C7 on a three-candidate set with labels 0, 1, 2. -/
theorem c7_distance_graph_complete_euclidean_witness :
    (ids [(⟨⟨0, 0, 0, 1, 1⟩, 0, 0, 0⟩ : RegistroProc), ⟨⟨1, 0, 1, 2, 2⟩, 1, 1, 1⟩,
      ⟨⟨2, 1, 0, 3, 3⟩, 1, 1, 1⟩]).Nodup ∧
    (arestas [(⟨⟨0, 0, 0, 1, 1⟩, 0, 0, 0⟩ : RegistroProc), ⟨⟨1, 0, 1, 2, 2⟩, 1, 1, 1⟩,
      ⟨⟨2, 1, 0, 3, 3⟩, 1, 1, 1⟩]).card = 3 * (3 - 1) / 2 := by
  have hnd : (ids [(⟨⟨0, 0, 0, 1, 1⟩, 0, 0, 0⟩ : RegistroProc), ⟨⟨1, 0, 1, 2, 2⟩, 1, 1, 1⟩,
      ⟨⟨2, 1, 0, 3, 3⟩, 1, 1, 1⟩]).Nodup := by with_unfolding_all decide
  exact ⟨hnd, (c7_distance_graph_complete_euclidean _ hnd).1⟩

/-- Length of the walk along consecutive entries of a node list, under the
distance function d. -/
def pathLen (d : Nat → Nat → ℚ) : List Nat → ℚ
  | [] => 0
  | [_] => 0
  | x :: y :: rest => d x y + pathLen d (y :: rest)

/-- Total length of the closed tour through t: the consecutive edges plus
the closing edge from the last node back to the first. -/
def cycleLen (d : Nat → Nat → ℚ) (t : List Nat) : ℚ := pathLen d (t ++ t.take 1)

/-- Nearest unvisited node to cur: the first minimiser of d cur in the
list (deterministic tie-break, first-seen wins). -/
def nnStep (d : Nat → Nat → ℚ) (cur : Nat) : List Nat → Option Nat
  | [] => none
  | x :: rest =>
    match nnStep d cur rest with
    | none => some x
    | some y => if d cur x ≤ d cur y then some x else some y

theorem nnStep_mem {d : Nat → Nat → ℚ} {cur : Nat} :
    ∀ {l : List Nat} {y : Nat}, nnStep d cur l = some y → y ∈ l := by
  intro l
  induction l with
  | nil => intro y h; simp [nnStep] at h
  | cons x rest ih =>
    intro y h
    rw [nnStep] at h
    cases hrec : nnStep d cur rest with
    | none =>
      simp only [hrec] at h
      cases h
      exact List.mem_cons_self x rest
    | some z =>
      simp only [hrec] at h
      by_cases hc : d cur x ≤ d cur z
      · rw [if_pos hc] at h
        cases h
        exact List.mem_cons_self x rest
      · rw [if_neg hc] at h
        cases h
        exact List.mem_cons_of_mem x (ih hrec)

theorem nnStep_eq_none {d : Nat → Nat → ℚ} {cur : Nat} :
    ∀ {l : List Nat}, nnStep d cur l = none → l = [] := by
  intro l h
  cases l with
  | nil => rfl
  | cons x rest =>
    rw [nnStep] at h
    cases hrec : nnStep d cur rest with
    | none =>
      simp only [hrec] at h
      exact Option.noConfusion h
    | some z =>
      simp only [hrec] at h
      by_cases hc : d cur x ≤ d cur z
      · rw [if_pos hc] at h; cases h
      · rw [if_neg hc] at h; cases h

/-- Greedy nearest-neighbour visiting loop: repeatedly move to the nearest
unvisited node, with fuel bounding the number of steps. -/
def nnAux (d : Nat → Nat → ℚ) : Nat → Nat → List Nat → List Nat
  | 0, _, _ => []
  | fuel + 1, cur, unvisited =>
    match nnStep d cur unvisited with
    | none => []
    | some y => y :: nnAux d fuel y (unvisited.erase y)

theorem nnAux_perm (d : Nat → Nat → ℚ) :
    ∀ (fuel : Nat) (cur : Nat) (l : List Nat), l.length ≤ fuel →
      (nnAux d fuel cur l).Perm l := by
  intro fuel
  induction fuel with
  | zero =>
    intro cur l hl
    rw [Nat.le_zero] at hl
    rw [List.length_eq_zero.mp hl]
    rfl
  | succ fuel ih =>
    intro cur l hl
    rw [nnAux]
    cases hstep : nnStep d cur l with
    | none => rw [nnStep_eq_none hstep]
    | some y =>
      have hy : y ∈ l := nnStep_mem hstep
      have hlen : (l.erase y).length = l.length - 1 := List.length_erase_of_mem hy
      have hle : (l.erase y).length ≤ fuel := by omega
      exact ((ih y (l.erase y) hle).cons y).trans (List.perm_cons_erase hy).symm

/-- Initial tour over nodes 0..n-1: start at node 0, then nearest-neighbour
through the remaining nodes. -/
def nnTour (d : Nat → Nat → ℚ) : Nat → List Nat
  | 0 => []
  | m + 1 => 0 :: nnAux d m 0 (List.range' 1 m)

theorem nnTour_perm (d : Nat → Nat → ℚ) (n : Nat) :
    (nnTour d n).Perm (List.range n) := by
  cases n with
  | zero => rfl
  | succ m =>
    rw [nnTour, List.range_eq_range', List.range'_succ]
    exact (nnAux_perm d m 0 (List.range' 1 m) (by rw [List.length_range'])).cons 0

/-- 2-opt move: reverse the contiguous segment of t between positions i
and j inclusive. -/
def segReverse (t : List Nat) (i j : Nat) : List Nat :=
  t.take i ++ (((t.drop i).take (j + 1 - i)).reverse ++ (t.drop i).drop (j + 1 - i))

theorem segReverse_perm (t : List Nat) (i j : Nat) : (segReverse t i j).Perm t := by
  have h1 : (segReverse t i j).Perm
      (t.take i ++ ((t.drop i).take (j + 1 - i) ++ (t.drop i).drop (j + 1 - i))) := by
    unfold segReverse
    exact List.Perm.append_left _ (List.Perm.append_right _ (List.reverse_perm _))
  rw [List.take_append_drop, List.take_append_drop] at h1
  exact h1

/-- Candidate position pairs i < j tested by a 2-opt sweep over a tour of
length n. -/
def allPairs (n : Nat) : List (Nat × Nat) :=
  (List.range n).flatMap fun i =>
    (List.range n).filterMap fun j => if i < j then some (i, j) else none

/-- First-improvement sweep: the first segment reversal that strictly
shortens the closed tour, if any. -/
def firstImproving (d : Nat → Nat → ℚ) (t : List Nat) :
    List (Nat × Nat) → Option (List Nat)
  | [] => none
  | p :: rest =>
    if cycleLen d (segReverse t p.1 p.2) < cycleLen d t then
      some (segReverse t p.1 p.2)
    else firstImproving d t rest

theorem firstImproving_spec {d : Nat → Nat → ℚ} {t : List Nat} :
    ∀ {ps : List (Nat × Nat)} {t2 : List Nat}, firstImproving d t ps = some t2 →
      cycleLen d t2 < cycleLen d t ∧ t2.Perm t := by
  intro ps
  induction ps with
  | nil => intro t2 h; rw [firstImproving] at h; cases h
  | cons p rest ih =>
    intro t2 h
    rw [firstImproving] at h
    by_cases hc : cycleLen d (segReverse t p.1 p.2) < cycleLen d t
    · rw [if_pos hc] at h
      cases h
      exact ⟨hc, segReverse_perm t p.1 p.2⟩
    · rw [if_neg hc] at h
      exact ih h

/-- 2-opt local search with an explicit iteration budget: repeatedly apply
the first length-reducing segment reversal until none exists or the budget
runs out. -/
def twoOpt (d : Nat → Nat → ℚ) : Nat → List Nat → List Nat
  | 0, t => t
  | fuel + 1, t =>
    match firstImproving d t (allPairs t.length) with
    | none => t
    | some t2 => twoOpt d fuel t2

theorem twoOpt_le (d : Nat → Nat → ℚ) :
    ∀ (fuel : Nat) (t : List Nat), cycleLen d (twoOpt d fuel t) ≤ cycleLen d t := by
  intro fuel
  induction fuel with
  | zero => intro t; exact le_refl _
  | succ fuel ih =>
    intro t
    rw [twoOpt]
    cases himp : firstImproving d t (allPairs t.length) with
    | none => exact le_refl _
    | some t2 => exact (ih t2).trans (firstImproving_spec himp).1.le

theorem twoOpt_perm (d : Nat → Nat → ℚ) :
    ∀ (fuel : Nat) (t : List Nat), (twoOpt d fuel t).Perm t := by
  intro fuel
  induction fuel with
  | zero => intro t; rfl
  | succ fuel ih =>
    intro t
    rw [twoOpt]
    cases himp : firstImproving d t (allPairs t.length) with
    | none => rfl
    | some t2 => exact (ih t2).trans (firstImproving_spec himp).2

/-- Modelled from the spec: src/green.py line 48 delegates the tour search
to networkx.approximation.traveling_salesman_problem, library code that is
not part of this repository. The heuristic is modelled per spec section 4.4
as a deterministic nearest-neighbour construction from the first candidate
followed by first-improvement 2-opt under an iteration budget; the output
follows the library's documented cycle=True contract: the closed tour is a
node list whose starting node is repeated as its final entry. -/
def traveling_salesman_problem (d : Nat → Nat → ℚ) (fuel n : Nat) : List Nat :=
  let t := twoOpt d fuel (nnTour d n)
  t ++ t.take 1

/-- C6: the closed tour returned by the modelled solver is never longer
than the nearest-neighbour tour alone (2-opt only ever applies strictly
improving reversals), for every distance matrix, iteration budget and
point count. The walk length of the returned closed list already includes
the closing edge, since the start is repeated at its end. -/
theorem c6_two_opt_le_nearest_neighbor (d : Nat → Nat → ℚ) (fuel n : Nat) :
    pathLen d (traveling_salesman_problem d fuel n) ≤ cycleLen d (nnTour d n) := by
  show cycleLen d (twoOpt d fuel (nnTour d n)) ≤ cycleLen d (nnTour d n)
  exact twoOpt_le d fuel (nnTour d n)

/-- Embedding of `encontrar_melhor_circuito` (src/green.py lines 25-50):
select `num_pontos` rows with `nlargest`, build the complete distance graph
over them, solve the tour, and return the rows indexed by the tour in visit
order (`melhores_pontos.loc[circuito]`, which keeps duplicated labels
duplicated). Graph nodes are modelled by candidate positions, in bijection
with the dataframe labels used by the source (labels are unique); the
modelled solver uses the squared Euclidean distance as its rational-valued
edge weight. -/
def encontrar_melhor_circuito (df : List RegistroProc) (num_pontos : Int) :
    List RegistroProc :=
  let mp := nlargest num_pontos df
  let d : Nat → Nat → ℚ := fun a b =>
    sqDist (mp.getD a default).toRegistro (mp.getD b default).toRegistro
  let circuito := traveling_salesman_problem d (mp.length * mp.length) mp.length
  circuito.map fun i => mp.getD i default

/-- Arithmetic mean of a rational column (pandas `.mean()`). -/
def media (xs : List ℚ) : ℚ := xs.sum / (xs.length : ℚ)

/-- Mean pollution reported by `main` (src/green.py line 104) over the rows
of the circuit dataframe. -/
def media_poluicao (dfc : List RegistroProc) : ℚ := media (dfc.map fun r => r.poluicao)

/-- Mean traffic reported by `main` (src/green.py line 106) over the rows
of the circuit dataframe. -/
def media_transito (dfc : List RegistroProc) : ℚ := media (dfc.map fun r => r.transito)

theorem map_getD_range {α : Type} (l : List α) (dflt : α) :
    (List.range l.length).map (fun i => l.getD i dflt) = l := by
  induction l with
  | nil => rfl
  | cons x xs ih =>
    simp only [List.length_cons, List.range_succ_eq_map, List.map_cons,
      List.map_map, Function.comp_def, Nat.succ_eq_add_one, List.getD_cons_zero,
      List.getD_cons_succ]
    rw [ih]

theorem encontrar_decomp (df : List RegistroProc) (n : Int) :
    ∃ t : List Nat, t.Perm (List.range (nlargest n df).length) ∧
      encontrar_melhor_circuito df n =
        (t ++ t.take 1).map fun i => (nlargest n df).getD i default := by
  simp only [encontrar_melhor_circuito, traveling_salesman_problem]
  exact ⟨_, (twoOpt_perm _ _ _).trans (nnTour_perm _ _), rfl⟩

/-- C2 amended: for a non-empty candidate set the returned circuit has
length N+1, not N — it is a closed cycle list whose first and last rows are
the same location, and dropping that final repeated row yields exactly a
permutation of the candidate set. -/
theorem c2_amended_closed_cycle (df : List RegistroProc) (n : Int)
    (h : nlargest n df ≠ []) :
    (encontrar_melhor_circuito df n).length = (nlargest n df).length + 1 ∧
    (encontrar_melhor_circuito df n).dropLast.Perm (nlargest n df) ∧
    (encontrar_melhor_circuito df n).head? = (encontrar_melhor_circuito df n).getLast? := by
  obtain ⟨t, hperm, heq⟩ := encontrar_decomp df n
  have hlen : t.length = (nlargest n df).length := by
    rw [hperm.length_eq, List.length_range]
  have htne : t ≠ [] := by
    intro h0
    rw [h0] at hlen
    exact h (List.length_eq_zero.mp hlen.symm)
  obtain ⟨x, xs, rfl⟩ := List.exists_cons_of_ne_nil htne
  simp only [List.length_cons] at hlen
  rw [heq]
  have htake : (x :: xs).take 1 = [x] := rfl
  rw [htake]
  have hmain : ((x :: xs) ++ [x]).map (fun i => (nlargest n df).getD i default) =
      (x :: xs).map (fun i => (nlargest n df).getD i default) ++
        [(nlargest n df).getD x default] := by
    rw [List.map_append]
    rfl
  have hmp : (List.range (nlargest n df).length).map
      (fun i => (nlargest n df).getD i default) = nlargest n df :=
    map_getD_range _ _
  have hp2 := hperm.map (fun i => (nlargest n df).getD i default)
  rw [hmp] at hp2
  refine ⟨?_, ?_, ?_⟩
  · rw [hmain]
    simp only [List.length_append, List.length_map, List.length_cons,
      List.length_nil]
    omega
  · rw [hmain, List.dropLast_concat]
    exact hp2
  · rw [hmain, List.getLast?_concat]
    rfl

/-- Counterexample to C2 as stated: selecting both rows of the two-row
example dataset yields a circuit of 3 rows, the starting location appearing
twice (networkx returns the closed cycle with the start repeated, and
`.loc` keeps the duplicate), not a 2-row permutation. -/
theorem c2_counterexample_duplicate_start :
    ((encontrar_melhor_circuito (carregar_e_processar_dados dfExemplo) 2).map
      fun r => r.idx) = [1, 0, 1] ∧
    (nlargest 2 (carregar_e_processar_dados dfExemplo)).length = 2 ∧
    (3 : Nat) ≠ 2 := by
  with_unfolding_all decide

theorem nlargest_dois :
    nlargest 2 (carregar_e_processar_dados dfExemplo) =
      [⟨⟨1, 0, 1, 10, 4⟩, 1, 1, 1⟩, ⟨⟨0, 0, 0, 2, 2⟩, 0, 0, 0⟩] := by
  rw [carregar_dfExemplo]
  with_unfolding_all decide

/-- Concrete instance of the amended C2 on the two-row example dataset. -/
theorem c2_amended_closed_cycle_witness :
    nlargest 2 (carregar_e_processar_dados dfExemplo) ≠ [] ∧
    (encontrar_melhor_circuito (carregar_e_processar_dados dfExemplo) 2).length =
      (nlargest 2 (carregar_e_processar_dados dfExemplo)).length + 1 := by
  have hne : nlargest 2 (carregar_e_processar_dados dfExemplo) ≠ [] := by
    rw [nlargest_dois]
    exact List.cons_ne_nil _ _
  exact ⟨hne, (c2_amended_closed_cycle _ 2 hne).1⟩

theorem media_circuito (df : List RegistroProc) (n : Int)
    (h : nlargest n df ≠ []) (g : RegistroProc → ℚ) :
    media ((encontrar_melhor_circuito df n).map g) =
      (((nlargest n df).map g).sum +
        g ((encontrar_melhor_circuito df n).headD default)) /
        (((nlargest n df).length : ℚ) + 1) := by
  obtain ⟨t, hperm, heq⟩ := encontrar_decomp df n
  have hlen : t.length = (nlargest n df).length := by
    rw [hperm.length_eq, List.length_range]
  have htne : t ≠ [] := by
    intro h0
    rw [h0] at hlen
    exact h (List.length_eq_zero.mp hlen.symm)
  obtain ⟨x, xs, rfl⟩ := List.exists_cons_of_ne_nil htne
  simp only [List.length_cons] at hlen
  rw [heq]
  have htake : (x :: xs).take 1 = [x] := rfl
  rw [htake]
  have hmain : ((x :: xs) ++ [x]).map (fun i => (nlargest n df).getD i default) =
      (x :: xs).map (fun i => (nlargest n df).getD i default) ++
        [(nlargest n df).getD x default] := by
    rw [List.map_append]
    rfl
  have hmp : (List.range (nlargest n df).length).map
      (fun i => (nlargest n df).getD i default) = nlargest n df :=
    map_getD_range _ _
  have hperm2 : (((x :: xs).map (fun i => (nlargest n df).getD i default)).map g).Perm
      ((nlargest n df).map g) := by
    have hp2 := hperm.map (fun i => (nlargest n df).getD i default)
    rw [hmp] at hp2
    exact hp2.map g
  rw [hmain]
  have hheadD : ((x :: xs).map (fun i => (nlargest n df).getD i default) ++
      [(nlargest n df).getD x default]).headD default =
      (nlargest n df).getD x default := rfl
  rw [hheadD]
  unfold media
  rw [List.map_append, List.sum_append, List.length_append, hperm2.sum_eq]
  have hlens : (((x :: xs).map (fun i => (nlargest n df).getD i default)).map g).length =
      (nlargest n df).length := by
    simp only [List.length_map, List.length_cons]
    omega
  rw [hlens]
  simp only [List.map_cons, List.map_nil, List.sum_cons, List.sum_nil,
    List.length_cons, List.length_nil, add_zero]
  push_cast
  ring

/-- C9 amended: the reported statistics are the means over the N+1 rows of
the returned circuit dataframe, in which the starting location is counted
twice; they equal the once-per-location means only when the start's raw
value happens to equal that mean. -/
theorem c9_amended_mean_double_counts_start (df : List RegistroProc) (n : Int)
    (h : nlargest n df ≠ []) :
    media_poluicao (encontrar_melhor_circuito df n) =
      (((nlargest n df).map fun r => r.poluicao).sum +
        ((encontrar_melhor_circuito df n).headD default).poluicao) /
        (((nlargest n df).length : ℚ) + 1) ∧
    media_transito (encontrar_melhor_circuito df n) =
      (((nlargest n df).map fun r => r.transito).sum +
        ((encontrar_melhor_circuito df n).headD default).transito) /
        (((nlargest n df).length : ℚ) + 1) :=
  ⟨media_circuito df n h (fun r => r.poluicao),
   media_circuito df n h (fun r => r.transito)⟩

/-- Counterexample to C9 as stated: on the two-row example dataset the
reported mean pollution over the returned circuit is 22/3 (the start row is
counted twice), while the mean over the circuit's locations counted once
each is 6. -/
theorem c9_counterexample_mean :
    media_poluicao (encontrar_melhor_circuito (carregar_e_processar_dados dfExemplo) 2) =
      22 / 3 ∧
    media_poluicao (nlargest 2 (carregar_e_processar_dados dfExemplo)) = 6 ∧
    (22 / 3 : ℚ) ≠ 6 := by
  with_unfolding_all decide

/-- Concrete instance of the amended C9 on the two-row example dataset. -/
theorem c9_amended_mean_double_counts_start_witness :
    nlargest 2 (carregar_e_processar_dados dfExemplo) ≠ [] ∧
    media_poluicao (encontrar_melhor_circuito (carregar_e_processar_dados dfExemplo) 2) =
      (((nlargest 2 (carregar_e_processar_dados dfExemplo)).map fun r => r.poluicao).sum +
        ((encontrar_melhor_circuito (carregar_e_processar_dados dfExemplo) 2).headD
          default).poluicao) /
        (((nlargest 2 (carregar_e_processar_dados dfExemplo)).length : ℚ) + 1) := by
  have hne : nlargest 2 (carregar_e_processar_dados dfExemplo) ≠ [] := by
    rw [nlargest_dois]
    exact List.cons_ne_nil _ _
  exact ⟨hne, (c9_amended_mean_double_counts_start _ 2 hne).1⟩
